import Mathlib

/-!
Verification development for the Compass AIPU lowering utilities and the
TIR lowering pass pipeline.

The pure helper functions of `python/tvm/aipu/utils.py` (`vec_type`,
`double_elem_width`, `half_elem_width`, `canonicalize_target`, `prod_const`,
`check_call_aipu_tool`) are embedded directly from the source.  The TIR
transform passes re-exported by `python/tvm/aipu/tir/transform/__init__.py`
(`GenBufferStride`, `AddDMAPragma`, `CanonicalizeRamp`,
`ExchangeConstantToRight`, `AlignVectorWidthBySplit`,
`InitializeEventState`/`Precodegen`, and the pass manager) have no
implementation in the available sources, so those are modelled from the
specification text; each such definition carries a doc comment starting
with `Modelled from the spec:`.
-/

namespace Compass

/-! ## Data model: `tvm.DataType`

A TVM data type is a type code (int / uint / float / bfloat / bool ...),
an element width in bits, and a lane count.  `with_bits` / `with_lanes`
replace one field and keep the others, exactly as in TVM.
-/

structure DataType where
  code : Nat
  bits : Nat
  lanes : Nat
deriving DecidableEq, Repr

def DataType.with_bits (d : DataType) (b : Nat) : DataType :=
  { d with bits := b }

def DataType.with_lanes (d : DataType) (l : Nat) : DataType :=
  { d with lanes := l }

/-- Function `utils.vec_type`: the vector version of a data type, with
`256 // bits` lanes (256 is the native vector width in bits). -/
def vec_type (dtype : DataType) : DataType :=
  dtype.with_lanes (256 / dtype.bits)

/-- Function `utils.double_elem_width`: double the element width.  When 64-bit
elements are not allowed, a 32-bit input is returned unchanged; otherwise
the lane count is halved whenever the doubled type would exceed 256 bits. -/
def double_elem_width (vdtype : DataType) (allow_64bit : Bool) : DataType :=
  if !allow_64bit && vdtype.bits == 32 then vdtype
  else
    let new_bits := vdtype.bits * 2
    let new_lanes := if new_bits * vdtype.lanes > 256 then vdtype.lanes / 2 else vdtype.lanes
    (vdtype.with_bits new_bits).with_lanes new_lanes

/-- Function `utils.half_elem_width`: halve the element width; by default the lane
count is doubled.  The source asserts `vdtype.bits >= 8`. -/
def half_elem_width (vdtype : DataType) (double_lanes : Bool) : DataType :=
  let new_lanes := if double_lanes then vdtype.lanes * 2 else vdtype.lanes
  (vdtype.with_bits (vdtype.bits / 2)).with_lanes new_lanes

/-- Claim C1: each of `vec_type`, `double_elem_width` (with its default
`allow_64bit = False`) and `half_elem_width` (with its default
`double_lanes = True`) maps a data type satisfying
`bits * lanes ≤ 256` to a data type satisfying `bits * lanes ≤ 256`,
the native vector width invariant. -/
theorem vec_helpers_preserve_native_width (d : DataType)
    (h : d.bits * d.lanes ≤ 256) :
    (vec_type d).bits * (vec_type d).lanes ≤ 256 ∧
    (double_elem_width d false).bits * (double_elem_width d false).lanes ≤ 256 ∧
    (half_elem_width d true).bits * (half_elem_width d true).lanes ≤ 256 := by
  refine ⟨?_, ?_, ?_⟩
  · simpa [vec_type, DataType.with_lanes, Nat.mul_comm] using
      Nat.div_mul_le_self 256 d.bits
  · unfold double_elem_width
    split
    · exact h
    · simp only [DataType.with_bits, DataType.with_lanes]
      split
      · calc d.bits * 2 * (d.lanes / 2) = d.bits * (d.lanes / 2 * 2) := by ring
          _ ≤ d.bits * d.lanes := Nat.mul_le_mul_left _ (Nat.div_mul_le_self _ _)
          _ ≤ 256 := h
      · next hle => exact Nat.not_lt.mp hle
  · unfold half_elem_width
    simp only [DataType.with_bits, DataType.with_lanes, if_pos rfl]
    calc d.bits / 2 * (d.lanes * 2) = d.bits / 2 * 2 * d.lanes := by ring
      _ ≤ d.bits * d.lanes := Nat.mul_le_mul_right _ (Nat.div_mul_le_self _ _)
      _ ≤ 256 := h

/-- Witness for C1 at the concrete 256-bit type `int32x8`. -/
theorem vec_helpers_preserve_native_width_witness :
    (vec_type ⟨0, 32, 8⟩).bits * (vec_type ⟨0, 32, 8⟩).lanes ≤ 256 ∧
    (double_elem_width ⟨0, 32, 8⟩ false).bits *
      (double_elem_width ⟨0, 32, 8⟩ false).lanes ≤ 256 ∧
    (half_elem_width ⟨0, 32, 8⟩ true).bits *
      (half_elem_width ⟨0, 32, 8⟩ true).lanes ≤ 256 :=
  vec_helpers_preserve_native_width ⟨0, 32, 8⟩ (by decide)

/-- Claim C9: for a vector type of element width 16 or 32 bits that fills the
native vector width exactly (`bits * lanes = 256`),
`double_elem_width (half_elem_width v)` with default arguments returns `v`;
for types narrower than 256 total bits the round trip can differ from the
input. -/
theorem double_half_elem_width_round_trip (d : DataType)
    (hb : d.bits = 16 ∨ d.bits = 32) (hw : d.bits * d.lanes = 256) :
    double_elem_width (half_elem_width d true) false = d ∧
    ∃ e : DataType, e.bits * e.lanes < 256 ∧
      double_elem_width (half_elem_width e true) false ≠ e := by
  constructor
  · obtain ⟨c, b, l⟩ := d
    rcases hb with hb | hb <;> simp only at hb <;> subst hb <;>
      simp only at hw
    · have hl : l = 16 := by omega
      subst hl
      simp [double_elem_width, half_elem_width, DataType.with_bits, DataType.with_lanes]
    · have hl : l = 8 := by omega
      subst hl
      simp [double_elem_width, half_elem_width, DataType.with_bits, DataType.with_lanes]
  · exact ⟨⟨0, 16, 8⟩, by decide, by decide⟩

/-- Witness for C9 at the concrete type `int32x8`. -/
theorem double_half_elem_width_round_trip_witness :
    double_elem_width (half_elem_width ⟨0, 32, 8⟩ true) false = ⟨0, 32, 8⟩ ∧
    ∃ e : DataType, e.bits * e.lanes < 256 ∧
      double_elem_width (half_elem_width e true) false ≠ e :=
  double_half_elem_width_round_trip ⟨0, 32, 8⟩ (Or.inr rfl) (by decide)

/-! ## `tvm.target.Target` and `utils.canonicalize_target`

A TVM target is modelled by its configuration string; its kind is the
first whitespace-separated token of that string (as parsed by
`tvm.target.Target`).
-/

def firstToken (s : String) : String :=
  String.mk (s.data.takeWhile (fun c => c != ' '))

structure Target where
  desc : String
deriving DecidableEq, Repr

def Target.kind (t : Target) : String := firstToken t.desc

/-- The argument of `canonicalize_target`: either an already-built
`tvm.target.Target` or a configuration string. -/
inductive TargetOrStr where
  | target (t : Target)
  | str (s : String)
deriving DecidableEq, Repr

/-- Function `utils.canonicalize_target`: a `Target` is returned unchanged; a string
not starting with `"aipu"` is prefixed with `"aipu -mcpu="` and then parsed. -/
def canonicalize_target : TargetOrStr → Target
  | .target t => t
  | .str s => if s.startsWith "aipu" then ⟨s⟩ else ⟨"aipu -mcpu=" ++ s⟩

theorem firstToken_aipu_mcpu (s : String) :
    firstToken ("aipu -mcpu=" ++ s) = "aipu" := by
  have h : ("aipu -mcpu=" ++ s).data = "aipu -mcpu=".data ++ s.data := by
    simp [String.data_append]
  simp only [firstToken, h]
  rfl

/-- Counterexample for C8: `canonicalize_target` applied to an already-built
`Target` of kind `"llvm"` returns it unchanged, so the result's kind is
not `"aipu"`. -/
theorem canonicalize_target_kind_counterexample :
    (canonicalize_target (.target ⟨"llvm"⟩)).kind ≠ "aipu" := by decide

/-- Claim C8, amended: `canonicalize_target` is idempotent — feeding the
resulting `Target` back returns it unchanged — and whenever the input is a
string that does not start with `"aipu"`, the result's kind is `"aipu"`. -/
theorem canonicalize_target_idempotent_kind (t : TargetOrStr) :
    canonicalize_target (.target (canonicalize_target t)) = canonicalize_target t ∧
    (∀ s, t = .str s → s.startsWith "aipu" = false →
      (canonicalize_target t).kind = "aipu") := by
  constructor
  · rfl
  · intro s hs hpre
    subst hs
    simp only [canonicalize_target, hpre, Bool.false_eq_true, if_false, Target.kind]
    exact firstToken_aipu_mcpu s

/-- Witness for C8 (amended) at the concrete string input `"X2"`. -/
theorem canonicalize_target_idempotent_kind_witness :
    canonicalize_target (.target (canonicalize_target (.str "X2"))) =
      canonicalize_target (.str "X2") ∧
    (canonicalize_target (.str "X2")).kind = "aipu" :=
  ⟨(canonicalize_target_idempotent_kind (.str "X2")).1,
   (canonicalize_target_idempotent_kind (.str "X2")).2 "X2" rfl (by decide)⟩

/-! ## `utils.check_call_aipu_tool`

The process state visible to the function is the current working
directory.  The invoked subprocess runs in its own process and cannot
change the parent's working directory, and the claim is about the chdir
discipline and the raise condition, so the tool run is modelled by its
observable outputs: the return code and the per-line lists of numbers
matched by the regular expression `(?<=Total errors: )\d+` over the log
file.  `os.path.abspath` is kept abstract as a `normalize` parameter.
-/

def EXE_NAME2TOOL_NAME : List (String × String) :=
  [("aipuopt", "Optimizer"), ("aipugb", "GBuilder"), ("aipugsim", "GSim"),
   ("aipurun", "AIPURun"), ("aipu_profiler", "Profiler")]

structure SysState where
  cwd : String
deriving DecidableEq, Repr

inductive PyError where
  | runtimeError (msg : String)
  | keyError (key : String)
deriving DecidableEq, Repr

/-- The `count_errors` scan of `check_call_aipu_tool`: lines are visited
in order; within a line the matched numbers are visited in order and the
first positive one is kept and both loops break; lines whose matches are
all zero (or that have no match) leave the count at zero. -/
def count_errors_of_log : List (List Nat) → Nat
  | [] => 0
  | line :: rest =>
    match line.find? (fun d => decide (0 < d)) with
    | some d => d
    | none => count_errors_of_log rest

/-- Function `utils.check_call_aipu_tool`: change into the work directory when it
differs from the current one, run the tool, scan the log, change back,
then raise `RuntimeError` when the return code or the error count is
nonzero (looking the tool name up in `EXE_NAME2TOOL_NAME`, which raises
`KeyError` for an unknown executable name). -/
def check_call_aipu_tool (normalize : String → String) (exe : String)
    (workDir : String) (retCode : Int) (logMatches : List (List Nat))
    (st : SysState) : SysState × Option PyError :=
  let wd := normalize workDir
  let oldCwd := st.cwd
  let st1 := if wd != oldCwd then { st with cwd := wd } else st
  let count := count_errors_of_log logMatches
  let st2 := if oldCwd != st1.cwd then { st1 with cwd := oldCwd } else st1
  let err :=
    if retCode != 0 || count != 0 then
      some (match EXE_NAME2TOOL_NAME.lookup exe with
        | some toolName =>
          PyError.runtimeError ("Error happened when executing the AIPU " ++ toolName)
        | none => PyError.keyError exe)
    else none
  (st2, err)

theorem count_errors_pos_iff (l : List (List Nat)) :
    count_errors_of_log l ≠ 0 ↔ ∃ line ∈ l, ∃ d ∈ line, 0 < d := by
  induction l with
  | nil => simp [count_errors_of_log]
  | cons line rest ih =>
    cases hf : line.find? (fun d => decide (0 < d)) with
    | some d =>
      have hd : 0 < d := by simpa using List.find?_some hf
      have hmem : d ∈ line := List.mem_of_find?_eq_some hf
      simp only [count_errors_of_log, hf]
      constructor
      · intro _; exact ⟨line, by simp, d, hmem, hd⟩
      · intro _; omega
    | none =>
      simp only [count_errors_of_log, hf]
      rw [ih]
      constructor
      · rintro ⟨l2, hl2, d, hd, hdpos⟩
        exact ⟨l2, by simp [hl2], d, hd, hdpos⟩
      · rintro ⟨l2, hl2, d, hd, hdpos⟩
        rcases List.mem_cons.mp hl2 with h | h
        · subst h
          have := List.find?_eq_none.mp hf d hd
          simp at this
          omega
        · exact ⟨l2, h, d, hd, hdpos⟩

/-- Claim C10: for every invocation of `check_call_aipu_tool` on a known AIPU
tool, the working directory after the call equals the working directory
before it, whether or not the call raises; and the call raises
`RuntimeError` exactly when the tool's return code is nonzero or the log
reports a positive `Total errors` count. -/
theorem check_call_aipu_tool_frame_and_raise (normalize : String → String)
    (exe workDir : String) (retCode : Int) (logMatches : List (List Nat))
    (st : SysState) (hexe : (EXE_NAME2TOOL_NAME.lookup exe).isSome = true) :
    (check_call_aipu_tool normalize exe workDir retCode logMatches st).1 = st ∧
    ((∃ msg, (check_call_aipu_tool normalize exe workDir retCode logMatches st).2 =
        some (.runtimeError msg)) ↔
      retCode ≠ 0 ∨ ∃ line ∈ logMatches, ∃ d ∈ line, 0 < d) := by
  obtain ⟨cwd0⟩ := st
  obtain ⟨toolName, hlk⟩ := Option.isSome_iff_exists.mp hexe
  constructor
  · unfold check_call_aipu_tool
    by_cases h : normalize workDir = cwd0
    · simp [h]
    · simp [bne_iff_ne, h, Ne.symm h]
  · unfold check_call_aipu_tool
    simp only [hlk]
    by_cases hr : (retCode != 0 || count_errors_of_log logMatches != 0) = true
    · have hcond : retCode ≠ 0 ∨ ∃ line ∈ logMatches, ∃ d ∈ line, 0 < d := by
        rcases Bool.or_eq_true_iff.mp hr with h | h
        · left; simpa [bne_iff_ne] using h
        · right; exact (count_errors_pos_iff logMatches).mp (by simpa [bne_iff_ne] using h)
      simp [hr, hcond]
    · have hret : retCode = 0 := by
        by_contra hc
        exact hr (by simp [bne_iff_ne, hc])
      have hcnt : count_errors_of_log logMatches = 0 := by
        by_contra hc
        exact hr (by simp [bne_iff_ne, hc])
      have hno : ¬(retCode ≠ 0 ∨ ∃ line ∈ logMatches, ∃ d ∈ line, 0 < d) := by
        rintro (h | h)
        · exact h hret
        · exact (count_errors_pos_iff logMatches).mpr h hcnt
      simp [hr, hno]

/-- Witness for C10: the Optimizer invoked from `/home` with work
directory `/tmp`, return code 1 and a log reporting 3 total errors. -/
theorem check_call_aipu_tool_frame_and_raise_witness :
    (check_call_aipu_tool id "aipuopt" "/tmp" 1 [[0], [3]] ⟨"/home"⟩).1 = ⟨"/home"⟩ ∧
    ((∃ msg, (check_call_aipu_tool id "aipuopt" "/tmp" 1 [[0], [3]] ⟨"/home"⟩).2 =
        some (.runtimeError msg)) ↔
      (1 : Int) ≠ 0 ∨ ∃ line ∈ [[0], [3]], ∃ d ∈ line, 0 < d) :=
  check_call_aipu_tool_frame_and_raise id "aipuopt" "/tmp" 1 [[0], [3]] ⟨"/home"⟩
    (by decide)

/-! ## Buffer stride generation -/

/-- Function `utils.prod_const`: reduce-multiply the given sequence of constant
extents into one constant, starting from 1 (`functools.reduce` with
`operator.mul` is a left fold). -/
def prod_const (arr : List Nat) : Nat := arr.foldl (· * ·) 1

/-- Modelled from the spec: the implementation of the `GenBufferStride`
pass is not among the available sources (only its re-export in
`tir/transform/__init__.py`).  Per the spec, for a row-major buffer of
shape `(s0..sn-1)` the byte stride of dimension `i` is
`elem_size * product(s[i+1..n-1])`. -/
def GenBufferStride (elem_size : Nat) : List Nat → List Nat
  | [] => []
  | _ :: rest => elem_size * prod_const rest :: GenBufferStride elem_size rest

/-- Claim C2: the stride-generation pass assigns dimension `i` of a row-major
buffer the byte stride `elem_size * product(s[i+1..n-1])`; in particular
shape `(2,3,4)` with 4-byte elements gets strides `(48,16,4)`. -/
theorem gen_buffer_stride_row_major (elem_size : Nat) (shape : List Nat)
    (i : Nat) (h : i < shape.length) :
    (GenBufferStride elem_size shape).getD i 0 =
      elem_size * prod_const (shape.drop (i + 1)) ∧
    GenBufferStride 4 [2, 3, 4] = [48, 16, 4] := by
  refine ⟨?_, rfl⟩
  induction shape generalizing i with
  | nil => simp at h
  | cons s rest ih =>
    cases i with
    | zero => simp [GenBufferStride]
    | succ j =>
      have hj : j < rest.length := by simpa using h
      simpa [GenBufferStride] using ih j hj

/-- Witness for C2: dimension 0 of the shape `(2,3,4)` buffer with 4-byte
elements. -/
theorem gen_buffer_stride_row_major_witness :
    (GenBufferStride 4 [2, 3, 4]).getD 0 0 =
      4 * prod_const ([2, 3, 4].drop (0 + 1)) ∧
    GenBufferStride 4 [2, 3, 4] = [48, 16, 4] :=
  gen_buffer_stride_row_major 4 [2, 3, 4] 0 (by decide)

/-! ## Normalization passes and their idempotence

The expression grammar covers the constructs the normalization passes
act on: variables, constants, commutative arithmetic, ramps and
broadcasts.
-/

inductive Expr where
  | var (name : String)
  | const (v : Int)
  | add (a b : Expr)
  | mul (a b : Expr)
  | ramp (base stride : Expr) (lanes : Nat)
  | broadcast (e : Expr) (lanes : Nat)
deriving DecidableEq, Repr

def Expr.isConst : Expr → Bool
  | .const _ => true
  | _ => false

/-- Modelled from the spec: the implementation of the
`ExchangeConstantToRight` pass is not among the available sources.  Per
the spec, normalization canonicalizes commutative-operator operand order
by moving constants to one side (the right): a commutative node whose
left operand is a constant and whose right operand is not has its
operands swapped, recursively. -/
def ExchangeConstantToRight : Expr → Expr
  | .add a b =>
    let a2 := ExchangeConstantToRight a
    let b2 := ExchangeConstantToRight b
    if a2.isConst && !b2.isConst then .add b2 a2 else .add a2 b2
  | .mul a b =>
    let a2 := ExchangeConstantToRight a
    let b2 := ExchangeConstantToRight b
    if a2.isConst && !b2.isConst then .mul b2 a2 else .mul a2 b2
  | .ramp base stride lanes =>
    .ramp (ExchangeConstantToRight base) (ExchangeConstantToRight stride) lanes
  | .broadcast e lanes => .broadcast (ExchangeConstantToRight e) lanes
  | e => e

/-- Modelled from the spec: the implementation of the `CanonicalizeRamp`
pass is not among the available sources.  Per the spec, normalization
canonicalizes strided-sequence ("ramp") expressions into one normal form;
the modelled normal form rewrites a ramp whose stride is the constant 0
into the broadcast of its base, recursively. -/
def CanonicalizeRamp : Expr → Expr
  | .add a b => .add (CanonicalizeRamp a) (CanonicalizeRamp b)
  | .mul a b => .mul (CanonicalizeRamp a) (CanonicalizeRamp b)
  | .ramp base stride lanes =>
    let s2 := CanonicalizeRamp stride
    if s2 = .const 0 then .broadcast (CanonicalizeRamp base) lanes
    else .ramp (CanonicalizeRamp base) s2 lanes
  | .broadcast e lanes => .broadcast (CanonicalizeRamp e) lanes
  | e => e

theorem exchange_constant_to_right_idem (e : Expr) :
    ExchangeConstantToRight (ExchangeConstantToRight e) = ExchangeConstantToRight e := by
  induction e with
  | var n => rfl
  | const v => rfl
  | add a b iha ihb =>
    simp only [ExchangeConstantToRight]
    split
    · next hc =>
      simp only [ExchangeConstantToRight, iha, ihb]
      rw [if_neg]
      intro hcon
      simp only [Bool.and_eq_true, Bool.not_eq_true] at hc hcon
      have hb : (ExchangeConstantToRight b).isConst = false := by simpa using hc.2
      simp [hb] at hcon
    · next hc =>
      simp only [ExchangeConstantToRight, iha, ihb]
      rw [if_neg hc]
  | mul a b iha ihb =>
    simp only [ExchangeConstantToRight]
    split
    · next hc =>
      simp only [ExchangeConstantToRight, iha, ihb]
      rw [if_neg]
      intro hcon
      simp only [Bool.and_eq_true, Bool.not_eq_true] at hc hcon
      have hb : (ExchangeConstantToRight b).isConst = false := by simpa using hc.2
      simp [hb] at hcon
    · next hc =>
      simp only [ExchangeConstantToRight, iha, ihb]
      rw [if_neg hc]
  | ramp base stride lanes ihb ihs =>
    simp only [ExchangeConstantToRight, ihb, ihs]
  | broadcast e lanes ih =>
    simp only [ExchangeConstantToRight, ih]

theorem canonicalize_ramp_idem (e : Expr) :
    CanonicalizeRamp (CanonicalizeRamp e) = CanonicalizeRamp e := by
  induction e with
  | var n => rfl
  | const v => rfl
  | add a b iha ihb => simp only [CanonicalizeRamp, iha, ihb]
  | mul a b iha ihb => simp only [CanonicalizeRamp, iha, ihb]
  | ramp base stride lanes ihb ihs =>
    simp only [CanonicalizeRamp]
    split
    · next hs => simp only [CanonicalizeRamp, ihb]
    · next hs =>
      simp only [CanonicalizeRamp, ihb, ihs]
      rw [if_neg hs]
  | broadcast e lanes ih => simp only [CanonicalizeRamp, ih]

/-- Claim C3: the modelled normalization passes are idempotent — applying
`ExchangeConstantToRight` or `CanonicalizeRamp` twice to any expression
equals applying it once. -/
theorem normalization_passes_idempotent :
    (∀ e : Expr, ExchangeConstantToRight (ExchangeConstantToRight e) =
      ExchangeConstantToRight e) ∧
    (∀ e : Expr, CanonicalizeRamp (CanonicalizeRamp e) = CanonicalizeRamp e) :=
  ⟨exchange_constant_to_right_idem, canonicalize_ramp_idem⟩

/-! ## Vector width legalization by splitting

A vector operation is represented by its element width in bits and its
lane count; the split result is described by the lists of original lane
indices each produced native-width operation covers.
-/

/-- Split a list into consecutive runs of `n` elements (the last run may
be shorter); the first argument is recursion fuel, which suffices
whenever it is at least the list length. -/
def chunkAux (fuel n : Nat) (l : List α) : List (List α) :=
  match fuel, l with
  | 0, _ => []
  | _ + 1, [] => []
  | f + 1, x :: xs => (x :: xs).take n :: chunkAux f n ((x :: xs).drop n)

def chunk (n : Nat) (l : List α) : List (List α) := chunkAux l.length n l

theorem chunkAux_join (n : Nat) (hn : 0 < n) :
    ∀ (fuel : Nat) (l : List α), l.length ≤ fuel →
      (chunkAux fuel n l).flatten = l := by
  intro fuel
  induction fuel with
  | zero =>
    intro l hl
    have : l = [] := List.length_eq_zero.mp (Nat.le_zero.mp hl)
    subst this
    rfl
  | succ f ih =>
    intro l hl
    cases l with
    | nil => rfl
    | cons x xs =>
      have hdrop : ((x :: xs).drop n).length ≤ f := by
        simp only [List.length_drop, List.length_cons] at hl ⊢
        omega
      simp only [chunkAux, List.flatten_cons, ih _ hdrop]
      exact List.take_append_drop n (x :: xs)

theorem ceil_div_aux (n m : Nat) (hn : 0 < n) (hm : 0 < m) :
    (m - n + n - 1) / n + 1 = (m + n - 1) / n := by
  rcases le_or_lt m n with hle | hlt
  · have h1 : m - n = 0 := by omega
    have h2 : m + n - 1 = (m - 1) + n := by omega
    rw [h1, Nat.zero_add, h2, Nat.add_div_right _ hn,
      Nat.div_eq_of_lt (by omega : n - 1 < n),
      Nat.div_eq_of_lt (by omega : m - 1 < n)]
  · have h1 : m - n + n - 1 = (m - n - 1) + n := by omega
    have h2 : m + n - 1 = ((m - n - 1) + n) + n := by omega
    rw [h1, h2, Nat.add_div_right _ hn, Nat.add_div_right _ hn, Nat.add_div_right _ hn]

theorem chunkAux_length (n : Nat) (hn : 0 < n) :
    ∀ (fuel : Nat) (l : List α), l.length ≤ fuel →
      (chunkAux fuel n l).length = (l.length + n - 1) / n := by
  intro fuel
  induction fuel with
  | zero =>
    intro l hl
    have : l = [] := List.length_eq_zero.mp (Nat.le_zero.mp hl)
    subst this
    simp [chunkAux, Nat.div_eq_of_lt (by omega : n - 1 < n)]
  | succ f ih =>
    intro l hl
    cases l with
    | nil => simp [chunkAux, Nat.div_eq_of_lt (by omega : n - 1 < n)]
    | cons x xs =>
      have hdrop : ((x :: xs).drop n).length ≤ f := by
        simp only [List.length_drop, List.length_cons] at hl ⊢
        omega
      simp only [chunkAux, List.length_cons, ih _ hdrop, List.length_drop]
      exact ceil_div_aux n (xs.length + 1) hn (Nat.succ_pos _)

theorem chunkAux_mem_length (n : Nat) :
    ∀ (fuel : Nat) (l : List α) (c : List α), c ∈ chunkAux fuel n l →
      c.length ≤ n := by
  intro fuel
  induction fuel with
  | zero => intro l c hc; simp [chunkAux] at hc
  | succ f ih =>
    intro l c hc
    cases l with
    | nil => simp [chunkAux] at hc
    | cons x xs =>
      simp only [chunkAux, List.mem_cons] at hc
      rcases hc with hc | hc
      · subst hc; exact List.length_take_le _ _
      · exact ih _ _ hc

/-- Modelled from the spec: the implementation of the
`AlignVectorWidthBySplit` pass is not among the available sources.  Per
the spec, a vector operation whose lane count × element width exceeds the
native vector width (256 bits) is rewritten into
`ceil(total_width / native_width)` hardware-width operations on disjoint
lane slices, ordered identically to the original lane order; each
produced operation covers a run of `256 / bits` consecutive original
lanes.  An operation already within the native width is left as one
operation. -/
def AlignVectorWidthBySplit (bits lanes : Nat) : List (List Nat) :=
  if bits * lanes ≤ 256 then [List.range lanes]
  else chunk (256 / bits) (List.range lanes)

/-- Claim C4: an over-wide vector operation is split into exactly
`ceil(lanes * bits / 256)` operations; concatenating their lane slices in
order gives back the original lane order (hence the slices are disjoint);
every produced operation fits the native width; and a 16-lane 32-bit
operation is split into exactly 2 operations of 8 lanes each. -/
theorem align_vector_width_by_split_correct (bits lanes : Nat)
    (hb : bits = 8 ∨ bits = 16 ∨ bits = 32) (hover : 256 < bits * lanes) :
    (AlignVectorWidthBySplit bits lanes).length = (lanes * bits + 255) / 256 ∧
    (AlignVectorWidthBySplit bits lanes).flatten = List.range lanes ∧
    (∀ op ∈ AlignVectorWidthBySplit bits lanes, op.length * bits ≤ 256) ∧
    ((AlignVectorWidthBySplit 32 16).length = 2 ∧
      ∀ op ∈ AlignVectorWidthBySplit 32 16, op.length = 8) := by
  have hnotle : ¬ bits * lanes ≤ 256 := Nat.not_le.mpr hover
  have hnl : 0 < 256 / bits := by rcases hb with h | h | h <;> subst h <;> decide
  have hlen : (List.range lanes).length = lanes := List.length_range lanes
  refine ⟨?_, ?_, ?_, ?_⟩
  · rw [AlignVectorWidthBySplit, if_neg hnotle, chunk, hlen,
      chunkAux_length _ hnl lanes _ (le_of_eq hlen), hlen]
    rcases hb with h | h | h <;> subst h <;> omega
  · rw [AlignVectorWidthBySplit, if_neg hnotle, chunk, hlen,
      chunkAux_join _ hnl lanes _ (le_of_eq hlen)]
  · intro op hop
    rw [AlignVectorWidthBySplit, if_neg hnotle, chunk] at hop
    have hle : op.length ≤ 256 / bits := chunkAux_mem_length _ _ _ _ hop
    rcases hb with h | h | h <;> subst h <;> omega
  · constructor
    · decide
    · decide

/-- Witness for C4 at the 16-lane 32-bit operation (512 total bits). -/
theorem align_vector_width_by_split_correct_witness :
    (AlignVectorWidthBySplit 32 16).length = (16 * 32 + 255) / 256 ∧
    (AlignVectorWidthBySplit 32 16).flatten = List.range 16 ∧
    (∀ op ∈ AlignVectorWidthBySplit 32 16, op.length * 32 ≤ 256) ∧
    ((AlignVectorWidthBySplit 32 16).length = 2 ∧
      ∀ op ∈ AlignVectorWidthBySplit 32 16, op.length = 8) :=
  align_vector_width_by_split_correct 32 16 (Or.inr (Or.inr rfl)) (by decide)

/-! ## DMA event state and finalization

Statements are the fragment the event-safety claim is about: sequencing,
conditionals, DMA transfers (carrying a destination buffer id and an
event id), event waits, and reads of a buffer.  A control-flow path is a
linearization of the statement tree (one branch chosen per conditional);
along a path the outstanding (destination, event) pairs of issued DMA
transfers are tracked, a wait retires every pair with its event, and a
read is safe only when its buffer is not the destination of an
outstanding transfer.
-/

inductive Action where
  | dma (dest event : Nat)
  | wait (event : Nat)
  | read (buf : Nat)
deriving DecidableEq, Repr

inductive Stmt where
  | skip
  | seq (a b : Stmt)
  | dma (dest event : Nat)
  | wait (event : Nat)
  | read (buf : Nat)
  | ite (t e : Stmt)
deriving DecidableEq, Repr

def step_action : Action → List (Nat × Nat) → Option (List (Nat × Nat))
  | .dma dest ev, p => some ((dest, ev) :: p)
  | .wait ev, p => some (p.filter (fun de => de.2 != ev))
  | .read b, p => if p.any (fun de => de.1 == b) then none else some p

/-- Run one control-flow path from a set of outstanding transfers;
`none` means some read on the path was not preceded by the wait on its
transfer's event. -/
def runTrace : List Action → List (Nat × Nat) → Option (List (Nat × Nat))
  | [], p => some p
  | a :: rest, p => (step_action a p).bind (runTrace rest)

/-- All control-flow paths of a statement. -/
def traces : Stmt → List (List Action)
  | .skip => [[]]
  | .seq a b => ((traces a).map (fun ta => (traces b).map (fun tb => ta ++ tb))).flatten
  | .dma dest ev => [[.dma dest ev]]
  | .wait ev => [[.wait ev]]
  | .read b => [[.read b]]
  | .ite t e => traces t ++ traces e

/-- Modelled from the spec: the implementations of the
`InitializeEventState` and `Precodegen` finalization passes are not among
the available sources.  Per the spec, finalization validates the
event-state invariant — every read of a DMA destination region is
preceded, on every control-flow path reaching it, by a wait on the
corresponding event — and rejects a violating module rather than
accepting it.  The checker tracks, path-insensitively, the outstanding
(destination, event) pairs: a conditional contributes the union of the
pairs left outstanding by its branches, and a read of a possibly
outstanding destination is rejected. -/
def finalize_check : Stmt → List (Nat × Nat) → Option (List (Nat × Nat))
  | .skip, p => some p
  | .seq a b, p =>
    match finalize_check a p with
    | none => none
    | some q => finalize_check b q
  | .dma dest ev, p => some ((dest, ev) :: p)
  | .wait ev, p => some (p.filter (fun de => de.2 != ev))
  | .read b, p => if p.any (fun de => de.1 == b) then none else some p
  | .ite t e, p =>
    match finalize_check t p, finalize_check e p with
    | some p1, some p2 => some (p1 ++ p2)
    | _, _ => none

theorem runTrace_append (t1 t2 : List Action) (p : List (Nat × Nat)) :
    runTrace (t1 ++ t2) p = (runTrace t1 p).bind (runTrace t2) := by
  induction t1 generalizing p with
  | nil => simp [runTrace]
  | cons a rest ih =>
    simp only [List.cons_append, runTrace]
    cases step_action a p <;> simp [ih]

theorem finalize_check_sound (s : Stmt) :
    ∀ p q r, finalize_check s p = some q → (∀ x ∈ r, x ∈ p) →
      ∀ t ∈ traces s, ∃ r2, runTrace t r = some r2 ∧ ∀ x ∈ r2, x ∈ q := by
  induction s with
  | skip =>
    intro p q r hc hsub t ht
    simp only [traces, List.mem_singleton] at ht
    subst ht
    simp only [finalize_check, Option.some_inj] at hc
    subst hc
    exact ⟨r, rfl, hsub⟩
  | seq a b iha ihb =>
    intro p q r hc hsub t ht
    simp only [finalize_check] at hc
    cases hca : finalize_check a p with
    | none => rw [hca] at hc; exact absurd hc (by simp)
    | some qa =>
      rw [hca] at hc
      simp only [traces, List.mem_flatten, List.mem_map] at ht
      obtain ⟨_, ⟨ta, hta, rfl⟩, htb⟩ := ht
      simp only [List.mem_map] at htb
      obtain ⟨tb, htb, rfl⟩ := htb
      obtain ⟨ra, hra, hsuba⟩ := iha p qa r hca hsub ta hta
      obtain ⟨rb, hrb, hsubb⟩ := ihb qa q ra hc hsuba tb htb
      refine ⟨rb, ?_, hsubb⟩
      rw [runTrace_append, hra]
      exact hrb
  | dma dest ev =>
    intro p q r hc hsub t ht
    simp only [traces, List.mem_singleton] at ht
    subst ht
    simp only [finalize_check, Option.some_inj] at hc
    subst hc
    refine ⟨(dest, ev) :: r, rfl, ?_⟩
    intro x hx
    rcases List.mem_cons.mp hx with hx | hx
    · exact List.mem_cons.mpr (Or.inl hx)
    · exact List.mem_cons.mpr (Or.inr (hsub x hx))
  | wait ev =>
    intro p q r hc hsub t ht
    simp only [traces, List.mem_singleton] at ht
    subst ht
    simp only [finalize_check, Option.some_inj] at hc
    subst hc
    refine ⟨r.filter (fun de => de.2 != ev), ?_, ?_⟩
    · simp [runTrace, step_action]
    · intro x hx
      rw [List.mem_filter] at hx ⊢
      exact ⟨hsub x hx.1, hx.2⟩
  | read b =>
    intro p q r hc hsub t ht
    simp only [traces, List.mem_singleton] at ht
    subst ht
    simp only [finalize_check] at hc
    by_cases hp : p.any (fun de => de.1 == b) = true
    · rw [if_pos hp] at hc; exact absurd hc (by simp)
    · rw [if_neg hp] at hc
      simp only [Option.some_inj] at hc
      subst hc
      have hr : r.any (fun de => de.1 == b) = false := by
        by_contra hcon
        rcases List.any_eq_true.mp (Bool.of_not_eq_false hcon) with ⟨x, hx, hxb⟩
        exact hp (List.any_eq_true.mpr ⟨x, hsub x hx, hxb⟩)
      refine ⟨r, ?_, hsub⟩
      simp [runTrace, step_action, hr]
  | ite t e iht ihe =>
    intro p q r hc hsub tr htr
    simp only [finalize_check] at hc
    cases hct : finalize_check t p with
    | none => rw [hct] at hc; exact absurd hc (by simp)
    | some p1 =>
      cases hce : finalize_check e p with
      | none => rw [hct, hce] at hc; exact absurd hc (by simp)
      | some p2 =>
        rw [hct, hce] at hc
        simp only [Option.some_inj] at hc
        subst hc
        simp only [traces, List.mem_append] at htr
        rcases htr with htr | htr
        · obtain ⟨r2, hr2, hsub2⟩ := iht p p1 r hct hsub tr htr
          exact ⟨r2, hr2, fun x hx => List.mem_append.mpr (Or.inl (hsub2 x hx))⟩
        · obtain ⟨r2, hr2, hsub2⟩ := ihe p p2 r hce hsub tr htr
          exact ⟨r2, hr2, fun x hx => List.mem_append.mpr (Or.inr (hsub2 x hx))⟩

/-- Claim C5: a statement accepted by the modelled finalization checker is
event-safe — on every control-flow path, every read of a DMA destination
is preceded by a wait on the transfer's event (so `runTrace` never
fails); and the synthetic statement that reads the DMA destination before
the wait is rejected by the checker. -/
theorem finalization_event_safety (s : Stmt)
    (hacc : (finalize_check s []).isSome = true) :
    (∀ t ∈ traces s, (runTrace t []).isSome = true) ∧
    finalize_check (.seq (.dma 7 1) (.seq (.read 7) (.wait 1))) [] = none := by
  constructor
  · intro t ht
    obtain ⟨q, hq⟩ := Option.isSome_iff_exists.mp hacc
    obtain ⟨r2, hr2, _⟩ := finalize_check_sound s [] q [] hq (by simp) t ht
    simp [hr2]
  · decide

/-- Witness for C5: the well-synchronized statement
`dma 7 1; wait 1; read 7` is accepted, hence every path is safe. -/
theorem finalization_event_safety_witness :
    (∀ t ∈ traces (Stmt.seq (.dma 7 1) (.seq (.wait 1) (.read 7))),
      (runTrace t []).isSome = true) ∧
    finalize_check (.seq (.dma 7 1) (.seq (.read 7) (.wait 1))) [] = none :=
  finalization_event_safety (.seq (.dma 7 1) (.seq (.wait 1) (.read 7))) (by decide)

/-! ## Pass manager: preconditions and determinism -/

structure PMModule where
  has_multi_dim_copies : Bool
  strides_present : Bool
  dma_inserted : Bool
deriving DecidableEq, Repr

inductive LoweringError where
  | preconditionViolation (passName : String) (missing : String)
deriving DecidableEq, Repr

/-- A managed pass: a name, a precondition check returning the missing
property (if any), and the transformation itself. -/
structure Pass where
  name : String
  precondition : PMModule → Option String
  run : PMModule → PMModule

/-- Modelled from the spec: `GenBufferStride` as a managed pass — it has
no precondition and establishes the "strides present" property. -/
def genBufferStridePass : Pass where
  name := "GenBufferStride"
  precondition := fun _ => none
  run := fun m => { m with strides_present := true }

/-- Modelled from the spec: `AddDMAPragma` (DMA insertion) as a managed
pass — it derives per-dimension length/stride from the already computed
strides, so on a module containing multi-dimensional buffer copies it
requires the "strides present" property. -/
def addDMAPragmaPass : Pass where
  name := "AddDMAPragma"
  precondition := fun m =>
    if m.has_multi_dim_copies && !m.strides_present then some "strides present" else none
  run := fun m => { m with dma_inserted := true }

/-- Modelled from the spec: the pass manager executes passes strictly in
order; before each pass it verifies the pass's required properties and
fails with `PreconditionViolation` naming the pass and the missing
property instead of proceeding. -/
def run_passes : List Pass → PMModule → Except LoweringError PMModule
  | [], m => .ok m
  | p :: rest, m =>
    match p.precondition m with
    | some missing => .error (.preconditionViolation p.name missing)
    | none => run_passes rest (p.run m)

/-- Claim C6: on a module with multi-dimensional buffer copies whose strides
have not been generated, running the DMA-insertion pass before the
stride-generation pass fails with a `PreconditionViolation` naming
`AddDMAPragma` and the missing "strides present" property, and never
returns a module. -/
theorem dma_before_stride_precondition_violation (m : PMModule)
    (hcopy : m.has_multi_dim_copies = true) (hstride : m.strides_present = false) :
    run_passes [addDMAPragmaPass, genBufferStridePass] m =
      .error (.preconditionViolation "AddDMAPragma" "strides present") ∧
    ∀ m2, run_passes [addDMAPragmaPass, genBufferStridePass] m ≠ .ok m2 := by
  have h : run_passes [addDMAPragmaPass, genBufferStridePass] m =
      .error (.preconditionViolation "AddDMAPragma" "strides present") := by
    simp [run_passes, addDMAPragmaPass, hcopy, hstride]
  refine ⟨h, fun m2 hc => ?_⟩
  rw [h] at hc
  exact Except.noConfusion hc

/-- Witness for C6 at the concrete module with multi-dimensional copies
and absent strides. -/
theorem dma_before_stride_precondition_violation_witness :
    run_passes [addDMAPragmaPass, genBufferStridePass] ⟨true, false, false⟩ =
      .error (.preconditionViolation "AddDMAPragma" "strides present") ∧
    ∀ m2, run_passes [addDMAPragmaPass, genBufferStridePass] ⟨true, false, false⟩ ≠
      .ok m2 :=
  dma_before_stride_precondition_violation ⟨true, false, false⟩ rfl rfl

/-- An execution environment external to the pipeline: wall-clock time
and any other external state. -/
structure Env where
  time_nanos : Nat
  external_state : Nat
deriving DecidableEq, Repr

/-- Modelled from the spec: the pipeline entry point.  The pipeline is a
pure function of the input module and the ordered pass list — it performs
no file or network IO and consults no ambient state — so the execution
environment passed alongside cannot influence the outcome. -/
def run_pipeline (_env : Env) (passes : List Pass) (m : PMModule) :
    Except LoweringError PMModule :=
  run_passes passes m

/-- Claim C7: two runs of the pipeline on the same module and pass list under
different environments (timing, external state) produce the same outcome:
both succeed with the same module or both fail with the same error. -/
theorem pipeline_deterministic (env1 env2 : Env) (passes : List Pass) (m : PMModule) :
    run_pipeline env1 passes m = run_pipeline env2 passes m ∧
    ((∃ m2, run_pipeline env1 passes m = .ok m2 ∧
        run_pipeline env2 passes m = .ok m2) ∨
      (∃ err, run_pipeline env1 passes m = .error err ∧
        run_pipeline env2 passes m = .error err)) := by
  refine ⟨rfl, ?_⟩
  cases h : run_passes passes m with
  | ok m2 => exact Or.inl ⟨m2, h, h⟩
  | error err => exact Or.inr ⟨err, h, h⟩

end Compass
